import Mathlib

/-!
Verification of the lsh-rs repository core: a shallow embedding of the
LSH bucket stores (in-memory and persistent), the weight arena, and the
sparsely-activated network (forward / backprop / rehash), with theorems
settling the specification's claims.

Modelling conventions:
* `f32` values are modelled as rationals (exact arithmetic).
* Rust panics (out-of-bounds indexing, `expect`, arithmetic underflow)
  are modelled by `Option`/`Except`: a `none` result is an aborted run.
* Hash maps and hash sets are modelled by association lists and duplicate
  free lists; only the operations the source uses are modelled.
* The `LshMem` index type (file `lsh.rs`, not part of the sources under
  review) is external to the network code: its `query_bucket_ids` is a
  function parameter of the network state, and the `update_by_idx` calls
  performed by `rehash` are recorded in an explicit trace.
-/

namespace LshRs

attribute [local semireducible] Rat.add Rat.mul Rat.sub Rat.inv

/-- `Hash` = `Vec<i32>` (sequence of signed 32-bit hash components). -/
abbrev Hash := List Int

/-- A data point is a `Vec<f32>`, modelled with exact rationals. -/
abbrev DataPoint := List ℚ

/-- `Bucket` = `FnvHashSet<u32>`, modelled as a duplicate-free list. -/
abbrev Bucket := List ℕ

/-- `HashSet::insert`: add the id if absent. -/
def bucketInsert (b : Bucket) (x : ℕ) : Bucket :=
  if x ∈ b then b else b ++ [x]

/-- `HashSet::remove`: drop every occurrence of the id. -/
def bucketRemove (b : Bucket) (x : ℕ) : Bucket :=
  b.filter (fun y => y ≠ x)

/-- Association-list lookup, modelling `HashMap::get`. -/
def alGet : List (Hash × Bucket) → Hash → Option Bucket
  | [], _ => none
  | (k, v) :: t, h => if k = h then some v else alGet t h

/-- Model of `tbl.entry(hash).or_insert_with(HashSet::default).insert(idx)`:
insert `idx` into the bucket stored at `hash`, creating the bucket when
absent. -/
def alInsertId : List (Hash × Bucket) → Hash → ℕ → List (Hash × Bucket)
  | [], h, idx => [(h, bucketInsert [] idx)]
  | (k, v) :: t, h, idx =>
      if k = h then (k, bucketInsert v idx) :: t else (k, v) :: alInsertId t h idx

/-- Model of `tbl.get_mut(&hash)` followed by `bucket.remove(&idx)`:
update the bucket stored at `hash` in place (the caller checks presence). -/
def alRemoveId : List (Hash × Bucket) → Hash → ℕ → List (Hash × Bucket)
  | [], _, _ => []
  | (k, v) :: t, h, idx =>
      if k = h then (k, bucketRemove v idx) :: t else (k, v) :: alRemoveId t h idx

/-- Errors of the `HashTables` trait (`general.rs`, via its users in
`mem.rs` and `sqlite.rs`). -/
inductive HashTableError where
  | notFound
  | notImplemented
  | tableNotExist
  | failed
deriving DecidableEq, Repr

/-- `VecStore::position`: first index whose stored point equals `d`
(`all_eq` is element-wise equality). -/
def vecPosition (m : List DataPoint) (d : DataPoint) : Option ℕ :=
  m.findIdx? (fun x => x = d)

/-- `MemoryTable` (file `mem.rs`): per-table hash maps, the vector store,
the table count, the retention flag, and the id counter. -/
structure MemoryTable where
  hash_tables : List (List (Hash × Bucket))
  n_hash_tables : ℕ
  vec_store : List DataPoint
  only_index_storage : Bool
  counter : ℕ
deriving DecidableEq, Repr

/-- `MemoryTable::new`. -/
def MemoryTable.new (n_hash_tables : ℕ) (only_index_storage : Bool) : MemoryTable :=
  { hash_tables := List.replicate n_hash_tables []
    n_hash_tables := n_hash_tables
    vec_store := []
    only_index_storage := only_index_storage
    counter := 0 }

/-- `MemoryTable::put`: insert the current counter into the bucket of
`hash` in table `hash_table`; push the point into the vector store on
table 0 when retention is on, otherwise increment the counter on the
last table.  (The two conditions are one `if/else if` chain, exactly as
in the source.)  Indexing a non-existent table panics (`none`). -/
def MemoryTable.put (st : MemoryTable) (hash : Hash) (d : DataPoint)
    (hash_table : ℕ) : Option (ℕ × MemoryTable) :=
  match st.hash_tables[hash_table]? with
  | none => none
  | some tbl =>
      let idx := st.counter
      let st1 := { st with hash_tables := st.hash_tables.set hash_table (alInsertId tbl hash idx) }
      let st2 :=
        if hash_table = 0 ∧ st.only_index_storage = false then
          { st1 with vec_store := st1.vec_store ++ [d] }
        else if hash_table = st.n_hash_tables - 1 then
          { st1 with counter := st1.counter + 1 }
        else st1
      some (idx, st2)

/-- `MemoryTable::delete`: look the point up in the vector store (absent:
`Ok(())`, nothing changes); then remove its index from the bucket of
`hash` in table `hash_table` (missing bucket: `Err(NotFound)`).  The
vector store is never modified. -/
def MemoryTable.delete (st : MemoryTable) (hash : Hash) (d : DataPoint)
    (hash_table : ℕ) : Option (Except HashTableError Unit × MemoryTable) :=
  match vecPosition st.vec_store d with
  | none => some (Except.ok (), st)
  | some idx =>
      match st.hash_tables[hash_table]? with
      | none => none
      | some tbl =>
          match alGet tbl hash with
          | none => some (Except.error HashTableError.notFound, st)
          | some _ =>
              some (Except.ok (),
                { st with hash_tables := st.hash_tables.set hash_table (alRemoveId tbl hash idx) })

/-- `MemoryTable::query_bucket`: clone of the bucket, `NotFound` when the
hash has no entry. -/
def MemoryTable.query_bucket (st : MemoryTable) (hash : Hash)
    (hash_table : ℕ) : Option (Except HashTableError Bucket) :=
  match st.hash_tables[hash_table]? with
  | none => none
  | some tbl =>
      match alGet tbl hash with
      | none => some (Except.error HashTableError.notFound)
      | some bucket => some (Except.ok bucket)

/-- One signed 32-bit component to its four little-endian bytes
(two's complement; 4294967296 = 2^32), modelling the byte layout read by
`hash_to_blob`. -/
def i32ToBytes (x : Int) : List ℕ :=
  let n := (x % 4294967296).toNat
  [n % 256, n / 256 % 256, n / 65536 % 256, n / 16777216 % 256]

/-- `hash_to_blob` (file `sqlite.rs`): the hash as its little-endian byte
blob, four bytes per `i32` component. -/
def hash_to_blob (hash : List Int) : List ℕ :=
  hash.foldr (fun x acc => i32ToBytes x ++ acc) []

/-- Four little-endian bytes back to the signed 32-bit value they encode
(2147483648 = 2^31 is the two's-complement sign threshold). -/
def bytesToI32 (b0 b1 b2 b3 : ℕ) : Int :=
  let n : ℕ := b0 + 256 * b1 + 65536 * b2 + 16777216 * b3
  if n < 2147483648 then (n : Int) else (n : Int) - 4294967296

/-- `blob_to_hash` (file `sqlite.rs`): reinterpret the blob as
`blob.len() / 4` signed 32-bit components. -/
def blob_to_hash : List ℕ → List Int
  | b0 :: b1 :: b2 :: b3 :: rest => bytesToI32 b0 b1 b2 b3 :: blob_to_hash rest
  | _ => []

/-- Errors surfaced by the modelled database driver. -/
inductive DbError where
  | sqliteFailure
deriving DecidableEq, Repr

/-- A persistent table is its list of `(hash, id)` rows in insertion
order. -/
abbrev SqlRows := List (Hash × ℕ)

/-- Modelled from the spec: `insert_table` runs an SQL `INSERT` against a
table whose composite primary key is `(hash, id)`; a colliding insert
fails with a constraint violation (`SqliteFailure`) and inserts nothing.
(The SQL engine itself is not part of the sources; `make_table` declares
`PRIMARY KEY (hash, id)` and §4.B of the spec fixes the collision
behaviour.)  Rows are keyed by the encoded blob, which determines the
hash component list of every key in range (see `C6`). -/
def insert_table (rows : SqlRows) (hash : Hash) (idx : ℕ) :
    Except DbError SqlRows :=
  if (hash, idx) ∈ rows then Except.error DbError.sqliteFailure
  else Except.ok (rows ++ [(hash, idx)])

/-- `SqlTable` (file `sqlite.rs`): the id counter, the table count, and
one row list per named table. -/
structure SqlTable where
  n_hash_tables : ℕ
  counter : ℕ
  tables : List SqlRows
deriving DecidableEq, Repr

/-- `SqlTable::new_in_mem`: empty tables, counter 0. -/
def SqlTable.new_in_mem (n_hash_tables : ℕ) : SqlTable :=
  { n_hash_tables := n_hash_tables
    counter := 0
    tables := List.replicate n_hash_tables [] }

/-- `SqlTable::put`: read the counter, insert `(hash, counter)` into the
requested table (a missing table is `TableNotExist`), increment the
counter after the last table, and treat both a successful insert and a
`SqliteFailure` (primary-key collision) as `Ok(idx)`. -/
def SqlTable.put (st : SqlTable) (hash : Hash) (hash_table : ℕ) :
    Except HashTableError (ℕ × SqlTable) :=
  let idx := st.counter
  match st.tables[hash_table]? with
  | none => Except.error HashTableError.tableNotExist
  | some rows =>
      let r := insert_table rows hash idx
      let rows' := match r with
        | Except.ok rs => rs
        | Except.error _ => rows
      let st1 := { st with tables := st.tables.set hash_table rows' }
      let st2 :=
        if hash_table = st.n_hash_tables - 1 then
          { st1 with counter := st1.counter + 1 }
        else st1
      Except.ok (idx, st2)

/-- `SqlTable::query_bucket`: the ids of the rows of the requested table
whose hash equals the requested one (one per matching row). -/
def SqlTable.query_bucket (st : SqlTable) (hash : Hash) (hash_table : ℕ) :
    Except HashTableError (List ℕ) :=
  match st.tables[hash_table]? with
  | none => Except.error HashTableError.tableNotExist
  | some rows => Except.ok ((rows.filter (fun r => r.1 = hash)).map Prod.snd)

/-- A weight vector (`Array1<f32>`), modelled with exact rationals. -/
abbrev Weight := List ℚ

/-- `MemArena` (file `network.rs`): the live pool, the frozen backup, and
the free-slot stack. -/
structure MemArena where
  pool : List Weight
  pool_backup : List Weight
  free : List ℕ
deriving DecidableEq, Repr

/-- `MemArena::new`. -/
def MemArena.new : MemArena :=
  { pool := [], pool_backup := [], free := [] }

/-- `MemArena::add`: pop a free slot and `Vec::insert` the vector at that
position (which shifts the following elements; inserting past the end
panics), else push at the end and return the new last index. -/
def MemArena.add (a : MemArena) (p : Weight) : Option (ℕ × MemArena) :=
  match a.free with
  | idx :: rest =>
      if idx ≤ a.pool.length then
        some (idx, { a with pool := a.pool.insertIdx idx p, free := rest })
      else none
  | [] =>
      some (a.pool.length, { a with pool := a.pool ++ [p] })

/-- `MemArena::freeze`: copy the pool into the backup wholesale. -/
def MemArena.freeze (a : MemArena) : MemArena :=
  { a with pool_backup := a.pool }

/-- The activation interface (`activations.rs` is an external
collaborator; §6 of the spec gives `activate` and `prime`). -/
structure Activ where
  activate : ℚ → ℚ
  prime : ℚ → ℚ

/-- The loss interface (`loss.rs` is an external collaborator; §6 of the
spec gives `loss` and `delta`, the latter folding in the last-layer
activation derivative).  A variant is a constructor from the last-layer
activation. -/
structure LossFn where
  loss : ℚ → ℚ → ℚ
  delta : ℚ → ℚ → ℚ

/-- `Neuron` (file `network.rs`). -/
structure Neuron where
  i : ℕ
  j : ℕ
  k : ℕ
  z : ℚ
  a : ℚ
  delta : ℚ
deriving DecidableEq, Repr

/-- `Network` (file `network.rs`).  The per-layer `LshMem` indices are
external (`lsh.rs` is not among the reviewed sources): their
`query_bucket_ids` behaviour is the `query` field, and the mutations
`rehash` performs on them are recorded as an explicit call trace. -/
structure Network where
  w : List (List ℕ)
  lsh2bias : List (ℕ → Option ℚ)
  activations : List Activ
  n_layers : ℕ
  pool : MemArena
  lsh2pool : List (ℕ → Option ℕ)
  dimensions : List ℕ
  lr : ℚ
  loss : String
  query : ℕ → List ℚ → List ℕ

/-- The slot lookup `self.lsh2pool[layer].get(&j)` that `get_weight`,
`get_weight_original` and `set_pool_backup` all perform first (an
out-of-range layer or an unknown pid panics, here `none`). -/
def Network.slot (net : Network) (layer j : ℕ) : Option ℕ :=
  match net.lsh2pool[layer]? with
  | none => none
  | some f => f j

/-- `Network::get_weight` via the slot lookup (both `expect`s are
`none`). -/
def Network.get_weight (net : Network) (layer j : ℕ) : Option Weight :=
  match net.slot layer j with
  | none => none
  | some s => net.pool.pool[s]?

/-- `Network::get_weight_original`: as `get_weight`, reading the frozen
backup pool. -/
def Network.get_weight_original (net : Network) (layer j : ℕ) : Option Weight :=
  match net.slot layer j with
  | none => none
  | some s => net.pool.pool_backup[s]?

/-- `Network::set_pool_backup`: overwrite the backup entry of the slot of
pid `j` at `layer` with the live weight (indexing past either pool
panics). -/
def Network.set_pool_backup (net : Network) (layer j : ℕ) : Option Network :=
  match net.slot layer j with
  | none => none
  | some s =>
      match net.pool.pool[s]? with
      | none => none
      | some wcur =>
          if s < net.pool.pool_backup.length then
            some { net with pool :=
              { net.pool with pool_backup := net.pool.pool_backup.set s wcur } }
          else none

/-- `Network::get_biases`: the bias of each listed pid at `layer`. -/
def Network.get_biases (net : Network) (layer : ℕ) (idx : List ℕ) :
    Option (List ℚ) := do
  let f ← net.lsh2bias[layer]?
  idx.mapM f

/-- `ndarray` dot product of two equal-length vectors (panics on a length
mismatch). -/
def dotQ (a b : List ℚ) : Option ℚ :=
  if a.length = b.length then
    some ((a.zip b).foldl (fun acc p => acc + p.1 * p.2) 0)
  else none

/-- `Network::apply_layer`: the candidate pids are all of
`dimensions[len−1]` for the last layer and the LSH bucket union
otherwise; each candidate becomes a neuron with `z = input · w + b`,
`a = act(z)` and `delta = 0`. -/
def Network.apply_layer (net : Network) (i : ℕ) (input : List ℚ)
    (last_layer : Bool) : Option (List Neuron) := do
  let activ_fn ← net.activations[i]?
  let idx_j ←
    if last_layer then
      (net.dimensions[net.dimensions.length - 1]?).map List.range
    else
      some (net.query i input)
  let bias ← net.get_biases i idx_j
  let lsh2pool_i ← net.lsh2pool[i]?
  let k ← idx_j.mapM lsh2pool_i
  let ps ← k.mapM (fun s => net.pool.pool[s]?)
  (((ps.zip bias).zip idx_j).zip k).mapM (fun q => do
    let (((p, b), j), kk) := q
    let z0 ← dotQ input p
    let z := z0 + b
    pure { i := i, j := j, k := kk, z := z, a := activ_fn.activate z, delta := 0 })

/-- `make_input_next_layer`: a zero vector of the layer size with the
active activations filled in (`layer[c.j] = c.a` panics when `c.j` is out
of range). -/
def make_input_next_layer (prev_neur : List Neuron) (layer_size : ℕ) :
    Option (List ℚ) :=
  prev_neur.foldlM
    (fun layer c =>
      if c.j < layer_size then some (layer.set c.j c.a) else none)
    (List.replicate layer_size 0)

/-- The loop body of `Network::forward` for layers `1..n_layers−1`. -/
def Network.forwardStep (net : Network)
    (st : List (List Neuron) × List (List ℚ)) (i : ℕ) :
    Option (List (List Neuron) × List (List ℚ)) := do
  let (neur, inputs) := st
  let prev_neur ← neur.getLast?
  let dim ← net.dimensions[i]?
  let input ← make_input_next_layer prev_neur dim
  let last_layer := i = net.n_layers - 2
  let nn ← net.apply_layer i input last_layer
  pure (neur ++ [nn], inputs ++ [input])

/-- `Network::forward`: layer 0 is applied with `last_layer = false`
(also when it is the final non-input layer); the loop then runs over
`i ∈ 1..n_layers−1`, flagging `i = n_layers−2` as the last layer. -/
def Network.forward (net : Network) (x : List ℚ) :
    Option (List (List Neuron) × List (List ℚ)) := do
  let n0 ← net.apply_layer 0 x false
  (List.range' 1 (net.n_layers - 1 - 1)).foldlM net.forwardStep ([n0], [x])

/-- A two-dimension network (`L = 2`): one non-input layer, whose LSH
index answers the empty bucket on every query. -/
def netL2 : Network :=
  { w := [[0]]
    lsh2bias := [fun j => if j = 0 then some 0 else none]
    activations := [{ activate := fun z => z, prime := fun _ => 1 }]
    n_layers := 2
    pool := { pool := [[1]], pool_backup := [[1]], free := [] }
    lsh2pool := [fun j => if j = 0 then some 0 else none]
    dimensions := [1, 1]
    lr := 1
    loss := "mse"
    query := fun _ _ => [] }

/-- One entry of `prev_nodes` in `Network::backprop`: the delta paired
with the raw pointer to a neuron, of which only the fields `j` and `z`
are ever read. -/
structure PrevNode where
  delta : ℚ
  j : ℕ
  z : ℚ
deriving DecidableEq, Repr

/-- The innermost loop of `Network::backprop` for one `prev_nodes` entry
at one layer: fetch the weight row of the downstream pid and the layer
`layer+1` activation once, then accumulate
`delta = prev_delta * w[c.j] * act.prime(prev_z)` into every neuron of
`prev_layers[layer]`.  (The source also pushes each `(delta, c)` onto
`new_prev_nodes`, which is never read afterwards.) -/
def backpropInner (net : Network) (layer : ℕ) (pn : PrevNode)
    (cur : List Neuron) : Option (List Neuron) := do
  let w ← net.get_weight (layer + 1) pn.j
  let act ← net.activations[layer + 1]?
  cur.mapM (fun c => do
    let wj ← w[c.j]?
    pure { c with delta := c.delta + pn.delta * wj * act.prime pn.z })

/-- The backward walk of `Network::backprop` over the given layers (the
source iterates `(0..n_layers−2).rev()`).  `prev_nodes` is passed along
unchanged between layers: the source assigns `new_prev_nodes` but never
stores it back, so every layer is reached with the original (output
neuron) entry. -/
def backpropLayers (net : Network) (prev_nodes : List PrevNode) :
    List ℕ → List (List Neuron) → Option (List (List Neuron))
  | [], pls => some pls
  | layer :: rest, pls => do
      let pls' ← prev_nodes.foldlM
        (fun pls pn => do
          let cur ← pls[layer]?
          let cur' ← backpropInner net layer pn cur
          pure (pls.set layer cur'))
        pls
      backpropLayers net prev_nodes rest pls'

/-- Per-output-neuron body of `Network::backprop`: build the loss
function from the loss name and the last activation, accumulate the
averaged loss, set the output delta, and walk the prev layers with the
single `prev_nodes` entry of this output neuron.  `mkMSE` and `mkNLL`
are the external loss variants. -/
def backpropOutput (net : Network) (mkMSE mkNLL : Activ → LossFn)
    (y_true : List ℕ) (n_last : ℕ)
    (st : ℚ × List (List Neuron) × List Neuron) (c : Neuron) :
    Option (ℚ × List (List Neuron) × List Neuron) := do
  let (loss, pls, outAcc) := st
  let lastAct ← net.activations[net.activations.length - 1]?
  let yv ← y_true[c.j]?
  let loss_fn := if net.loss = "mse" then mkMSE lastAct else mkNLL lastAct
  let loss' := loss + loss_fn.loss (yv : ℚ) c.a / (n_last : ℚ)
  let d := loss_fn.delta (yv : ℚ) c.a
  let c' := { c with delta := d }
  let pls' ← backpropLayers net [⟨d, c'.j, c'.z⟩]
    ((List.range (net.n_layers - 2)).reverse) pls
  pure (loss', pls', outAcc ++ [c'])

/-- `Network::backprop`: split the neuron lists at `n_layers−2`, loop
over the output neurons, and return the loss together with the mutated
neuron lists. -/
def Network.backprop (net : Network) (mkMSE mkNLL : Activ → LossFn)
    (neur : List (List Neuron)) (y_true : List ℕ) :
    Option (ℚ × List (List Neuron)) := do
  let lastList ← neur[net.n_layers - 2]?
  let n_last := lastList.length
  let prev_layers := neur.take (net.n_layers - 2)
  let rest := neur.drop (net.n_layers - 1)
  let (loss, pls', out') ← lastList.foldlM
    (backpropOutput net mkMSE mkNLL y_true n_last) (0, prev_layers, [])
  pure (loss, pls' ++ [out'] ++ rest)

/-- Modelled from the spec: the intended chained backward walk of one
output neuron (§4.E.3 and §9 "Backprop delta accumulation" of the spec —
the behaviour `new_prev_nodes` was meant to implement).  At each layer
the downstream entries are the deltas computed at the layer above in the
same chain; every active neuron accumulates
`delta_d * W[layer+1, d.j][c.j] * act_prime(d.z)` summed over them, and
itself becomes a downstream entry for the next layer down. -/
def backpropChain (net : Network) :
    List ℕ → List PrevNode → List (List Neuron) → Option (List (List Neuron))
  | [], _, pls => some pls
  | layer :: rest, pns, pls => do
      let act ← net.activations[layer + 1]?
      let cur ← pls[layer]?
      let contrib : Neuron → Option ℚ := fun c =>
        pns.foldlM
          (fun acc pn => do
            let w ← net.get_weight (layer + 1) pn.j
            let wj ← w[c.j]?
            pure (acc + pn.delta * wj * act.prime pn.z))
          0
      let cur' ← cur.mapM (fun c => (contrib c).map (fun inc => { c with delta := c.delta + inc }))
      let pns' ← cur.mapM (fun c => (contrib c).map (fun inc => PrevNode.mk inc c.j c.z))
      backpropChain net rest pns' (pls.set layer cur')

/-- Modelled from the spec: per-output-neuron body with the chained
backward walk (loss and output delta exactly as the source). -/
def backpropChainOutput (net : Network) (mkMSE mkNLL : Activ → LossFn)
    (y_true : List ℕ) (n_last : ℕ)
    (st : ℚ × List (List Neuron) × List Neuron) (c : Neuron) :
    Option (ℚ × List (List Neuron) × List Neuron) := do
  let (loss, pls, outAcc) := st
  let lastAct ← net.activations[net.activations.length - 1]?
  let yv ← y_true[c.j]?
  let loss_fn := if net.loss = "mse" then mkMSE lastAct else mkNLL lastAct
  let loss' := loss + loss_fn.loss (yv : ℚ) c.a / (n_last : ℚ)
  let d := loss_fn.delta (yv : ℚ) c.a
  let c' := { c with delta := d }
  let pls' ← backpropChain net ((List.range (net.n_layers - 2)).reverse)
    [⟨d, c'.j, c'.z⟩] pls
  pure (loss', pls', outAcc ++ [c'])

/-- Modelled from the spec: `backprop` as the claim states it, with the
delta chain propagated layer by layer. -/
def Network.backpropSpec (net : Network) (mkMSE mkNLL : Activ → LossFn)
    (neur : List (List Neuron)) (y_true : List ℕ) :
    Option (ℚ × List (List Neuron)) := do
  let lastList ← neur[net.n_layers - 2]?
  let n_last := lastList.length
  let prev_layers := neur.take (net.n_layers - 2)
  let rest := neur.drop (net.n_layers - 1)
  let (loss, pls', out') ← lastList.foldlM
    (backpropChainOutput net mkMSE mkNLL y_true n_last) (0, prev_layers, [])
  pure (loss, pls' ++ [out'] ++ rest)

/-- `ndarray` sum of a weight vector (`w.sum()`). -/
def qsum (w : Weight) : ℚ :=
  w.foldl (fun a b => a + b) 0

/-- One `update_by_idx` call performed by `rehash` on the LSH index of a
layer, with the arguments the source passes. -/
structure UpdateCall where
  layer : ℕ
  j : ℕ
  w_now : Weight
  w_prev : Weight
deriving DecidableEq, Repr

/-- The body of `rehash` for one perceptron `j` of one layer: compare the
element sums of the live weight and the backup; when they differ, call
`update_by_idx` (recorded in the trace) and refresh the backup. -/
def Network.rehashJ (net : Network) (layer j : ℕ) :
    Option (Network × List UpdateCall) :=
  match net.get_weight layer j with
  | none => none
  | some w =>
      match net.get_weight_original layer j with
      | none => none
      | some w_original =>
          if qsum w ≠ qsum w_original then
            match net.set_pool_backup layer j with
            | none => none
            | some net' => some (net', [⟨layer, j, w, w_original⟩])
          else some (net, [])

/-- The inner `for j in 0..shape` loop of `rehash`, over an explicit list
of `(layer, j)` pairs, threading the state and the call trace. -/
def rehashSeq : Network → List UpdateCall → List (ℕ × ℕ) →
    Option (Network × List UpdateCall)
  | net, tr, [] => some (net, tr)
  | net, tr, p :: ps =>
      match net.rehashJ p.1 p.2 with
      | none => none
      | some (net', t') => rehashSeq net' (tr ++ t') ps

/-- The outer `for layer in 0..n_layers−1` loop of `rehash`: fetch
`shape = dimensions[layer+1]` (panicking when absent) and run the inner
loop. -/
def rehashOuter : Network → List UpdateCall → List ℕ →
    Option (Network × List UpdateCall)
  | net, tr, [] => some (net, tr)
  | net, tr, layer :: rest =>
      match net.dimensions[layer + 1]? with
      | none => none
      | some shape =>
          match rehashSeq net tr ((List.range shape).map (fun j => (layer, j))) with
          | none => none
          | some (net', tr') => rehashOuter net' tr' rest

/-- `Network::rehash`: for every layer `0..n_layers−1` and every
perceptron `j` of that layer, run the sum-based change detector; the
returned trace lists the `update_by_idx` calls in execution order. -/
def Network.rehash (net : Network) : Option (Network × List UpdateCall) :=
  rehashOuter net [] (List.range (net.n_layers - 1))

/-- The per-layer result of network initialisation. -/
structure LayerInit where
  w_idx : List ℕ
  lsh2pool_i : ℕ → Option ℕ
  lsh2bias_i : ℕ → Option ℚ

/-- The per-perceptron loop of `Network::new` for one layer: sample a
weight, store it in the layer's LSH index (modelled from the spec:
`store_vec` assigns pids densely from zero in insertion order, so the
pid is the loop index), add it to the arena, and record the pid-to-slot
and pid-to-bias entries. -/
def initPerceptrons (sample : ℕ → Weight) :
    List ℕ → MemArena → LayerInit → Option (MemArena × LayerInit)
  | [], pool, li => some (pool, li)
  | jj :: rest, pool, li =>
      match pool.add (sample jj) with
      | none => none
      | some (pool_idx, pool') =>
          initPerceptrons sample rest pool'
            { w_idx := li.w_idx ++ [jj]
              lsh2pool_i := fun q => if q = jj then some pool_idx else li.lsh2pool_i q
              lsh2bias_i := fun q => if q = jj then some 0 else li.lsh2bias_i q }

/-- The accumulated layer lists built by `Network::new`. -/
structure NetInit where
  w : List (List ℕ)
  lsh2pool : List (ℕ → Option ℕ)
  lsh2bias : List (ℕ → Option ℚ)

/-- The per-layer loop of `Network::new`: each layer `i` initialises
`dimensions[i+1]` perceptrons and appends the layer's maps. -/
def initLayers (dimensions : List ℕ) (sample : ℕ → ℕ → Weight) :
    List ℕ → MemArena → NetInit → Option (MemArena × NetInit)
  | [], pool, ni => some (pool, ni)
  | i :: rest, pool, ni =>
      match initPerceptrons (sample i) (List.range (dimensions.getD (i + 1) 0)) pool
          ⟨[], fun _ => none, fun _ => none⟩ with
      | none => none
      | some (pool', li) =>
          initLayers dimensions sample rest pool'
            ⟨ni.w ++ [li.w_idx], ni.lsh2pool ++ [li.lsh2pool_i],
              ni.lsh2bias ++ [li.lsh2bias_i]⟩

/-- `Network::new`: no configuration validation is performed.  An empty
dimensions list panics (`n_layers − 1` underflows and the loop indexes
out of bounds); otherwise every layer is built and the arena frozen.
The standard-normal weight sampling, the LSH constructor (whose `K`, `N`
arguments the external `LshMem` consumes) and the constructed indices'
query behaviour are external, supplied as the `sample` and `query`
parameters. -/
def Network.new (dimensions : List ℕ) (activations : List Activ)
    (n_projections n_hash_tables : ℕ) (lr : ℚ) (sample : ℕ → ℕ → Weight)
    (loss : String) (query : ℕ → List ℚ → List ℕ) : Option Network :=
  if dimensions.isEmpty then none
  else
    match initLayers dimensions sample (List.range (dimensions.length - 1))
        MemArena.new ⟨[], [], []⟩ with
    | none => none
    | some (pool, ni) =>
        some { w := ni.w
               lsh2bias := ni.lsh2bias
               activations := activations
               n_layers := dimensions.length
               pool := pool.freeze
               lsh2pool := ni.lsh2pool
               dimensions := dimensions
               lr := lr
               loss := loss
               query := query }

/-- All `(layer, j)` pairs the `rehash` loops visit: every perceptron of
every non-input layer. -/
def rehashPairs (net : Network) : List (ℕ × ℕ) :=
  (List.range (net.n_layers - 1)).flatMap
    (fun l => (List.range (net.dimensions.getD (l + 1) 0)).map (fun j => (l, j)))

/-- The `update_by_idx` call the change detector emits for a pair when
run against a given state: `some` exactly when the element sums of the
live weight and the backup differ. -/
def stepEntry (net : Network) (p : ℕ × ℕ) : Option UpdateCall :=
  match net.slot p.1 p.2 with
  | none => none
  | some s =>
      match net.pool.pool[s]?, net.pool.pool_backup[s]? with
      | some w, some wo =>
          if qsum w ≠ qsum wo then some ⟨p.1, p.2, w, wo⟩ else none
      | some _, none => none
      | none, _ => none

/-- The sum-based change detector is satisfied for a pair: the slot
lookups succeed and the element sums of live weight and backup agree. -/
def CleanAt (net : Network) (p : ℕ × ℕ) : Prop :=
  ∃ s w wo, net.slot p.1 p.2 = some s ∧ net.pool.pool[s]? = some w ∧
    net.pool.pool_backup[s]? = some wo ∧ qsum w = qsum wo

/-- The linear activation (identity, derivative 1), a concrete external
activation used in the evaluation networks. -/
def linAct : Activ :=
  { activate := fun z => z, prime := fun _ => 1 }

/-- A concrete external MSE-style loss variant: only its values at the
evaluated points matter to the theorems using it. -/
def mseLike : Activ → LossFn :=
  fun act => { loss := fun y a => (a - y) * (a - y)
               delta := fun y a => (a - y) * act.prime a }

/-- A concrete external NLL-style loss variant. -/
def nllLike : Activ → LossFn :=
  fun _ => { loss := fun y a => -(y * a), delta := fun y a => a - y }

/-- A four-dimension network (two hidden layers): one perceptron per
layer, weights `[7]`, `[3]`, `[5]` for layers 0, 1, 2. -/
def netL4 : Network :=
  { w := [[0], [0], [0]]
    lsh2bias := [fun j => if j = 0 then some 0 else none,
                 fun j => if j = 0 then some 0 else none,
                 fun j => if j = 0 then some 0 else none]
    activations := [linAct, linAct, linAct]
    n_layers := 4
    pool := { pool := [[7], [3], [5]], pool_backup := [[7], [3], [5]], free := [] }
    lsh2pool := [fun j => if j = 0 then some 0 else none,
                 fun j => if j = 0 then some 1 else none,
                 fun j => if j = 0 then some 2 else none]
    dimensions := [1, 1, 1, 1]
    lr := 1
    loss := "mse"
    query := fun _ _ => [0] }

/-- A neuron-list structure for `netL4` with the output activation 1. -/
def neurL4 : List (List Neuron) :=
  [[{ i := 0, j := 0, k := 0, z := 0, a := 0, delta := 0 }],
   [{ i := 1, j := 0, k := 1, z := 0, a := 0, delta := 0 }],
   [{ i := 2, j := 0, k := 2, z := 0, a := 1, delta := 0 }]]

/-- A one-table memory store holding the point `[5]` (id 0) in the
bucket of hash `[1]`, used to evaluate `delete`. -/
def stC10 : MemoryTable :=
  { hash_tables := [[([1], [0])]]
    n_hash_tables := 1
    vec_store := [[5]]
    only_index_storage := true
    counter := 1 }

/-- `stC10` after `delete([1], [5], 0)`: the id left the bucket, the
vector store is untouched. -/
def stC10After : MemoryTable :=
  { stC10 with hash_tables := [[([1], ([] : Bucket))]] }

/-- A one-perceptron network whose live weight `[2]` differs in sum from
its backup `[1]` — `rehash` must re-index it. -/
def netR : Network :=
  { w := [[0]]
    lsh2bias := [fun j => if j = 0 then some 0 else none]
    activations := [{ activate := fun z => z, prime := fun _ => 1 }]
    n_layers := 2
    pool := { pool := [[2]], pool_backup := [[1]], free := [] }
    lsh2pool := [fun j => if j = 0 then some 0 else none]
    dimensions := [1, 1]
    lr := 1
    loss := "mse"
    query := fun _ _ => [0] }

/-- `netR` after its first `rehash`: the backup refreshed to the live
weight. -/
def netRAfter : Network :=
  { netR with pool := { pool := [[2]], pool_backup := [[2]], free := [] } }

/-- An arena with four occupied slots and slot 2 on the free list, used
to evaluate `add`. -/
def arenaC9 : MemArena :=
  { pool := [[1], [2], [3], [4]], pool_backup := [], free := [2] }

theorem rehashJ_spec {net net' : Network} {layer j : ℕ} {t : List UpdateCall}
    (h : net.rehashJ layer j = some (net', t)) :
    ∃ s w wo, net.slot layer j = some s ∧ net.pool.pool[s]? = some w ∧
      net.pool.pool_backup[s]? = some wo ∧
      ((qsum w ≠ qsum wo ∧ t = [⟨layer, j, w, wo⟩] ∧
        net' = { net with pool :=
          { net.pool with pool_backup := net.pool.pool_backup.set s w } }) ∨
       (qsum w = qsum wo ∧ t = [] ∧ net' = net)) := by
  unfold Network.rehashJ at h
  cases hgw : net.get_weight layer j with
  | none => rw [hgw] at h; cases h
  | some w =>
  rw [hgw] at h
  cases hgo : net.get_weight_original layer j with
  | none => rw [hgo] at h; cases h
  | some wo =>
  rw [hgo] at h
  unfold Network.get_weight at hgw
  unfold Network.get_weight_original at hgo
  cases hs : net.slot layer j with
  | none => rw [hs] at hgw; cases hgw
  | some s =>
  rw [hs] at hgw hgo
  have hw : net.pool.pool[s]? = some w := hgw
  have hwo : net.pool.pool_backup[s]? = some wo := hgo
  have h2 : (if qsum w ≠ qsum wo then
      (match net.set_pool_backup layer j with
       | none => none
       | some n2 => some (n2, [UpdateCall.mk layer j w wo]))
      else some (net, [])) = some (net', t) := h
  refine ⟨s, w, wo, rfl, hw, hwo, ?_⟩
  by_cases hc : qsum w ≠ qsum wo
  · rw [if_pos hc] at h2
    have hlt : s < net.pool.pool_backup.length :=
      (List.getElem?_eq_some.mp hwo).1
    have hsp : net.set_pool_backup layer j = some { net with pool :=
        { net.pool with pool_backup := net.pool.pool_backup.set s w } } := by
      unfold Network.set_pool_backup
      rw [hs]
      show (match net.pool.pool[s]? with
        | none => none
        | some wcur =>
            if s < net.pool.pool_backup.length then
              some { net with pool :=
                { net.pool with pool_backup := net.pool.pool_backup.set s wcur } }
            else none) = _
      rw [hw]
      show (if s < net.pool.pool_backup.length then _ else none) = _
      rw [if_pos hlt]
    rw [hsp] at h2
    have h3 : some ({ net with pool :=
        { net.pool with pool_backup := net.pool.pool_backup.set s w } },
        [UpdateCall.mk layer j w wo]) = some (net', t) := h2
    simp only [Option.some.injEq, Prod.mk.injEq] at h3
    exact Or.inl ⟨hc, h3.2.symm, h3.1.symm⟩
  · rw [if_neg hc] at h2
    simp only [Option.some.injEq, Prod.mk.injEq] at h2
    exact Or.inr ⟨not_not.mp hc, h2.2.symm, h2.1.symm⟩

theorem rehashJ_frame {net net' : Network} {layer j : ℕ} {t : List UpdateCall}
    (h : net.rehashJ layer j = some (net', t)) :
    net'.lsh2pool = net.lsh2pool ∧ net'.pool.pool = net.pool.pool ∧
    net'.dimensions = net.dimensions ∧ net'.n_layers = net.n_layers ∧
    net'.pool.pool_backup.length = net.pool.pool_backup.length := by
  obtain ⟨s, w, wo, hs, hw, hwo, hbr | hbr⟩ := rehashJ_spec h
  · obtain ⟨-, -, hnet⟩ := hbr
    subst hnet
    exact ⟨rfl, rfl, rfl, rfl, List.length_set _ _ _⟩
  · obtain ⟨-, -, hnet⟩ := hbr
    subst hnet
    exact ⟨rfl, rfl, rfl, rfl, rfl⟩

theorem slot_congr {net net' : Network} (h : net'.lsh2pool = net.lsh2pool)
    (layer j : ℕ) : net'.slot layer j = net.slot layer j := by
  unfold Network.slot
  rw [h]

theorem rehashJ_backup_other {net net' : Network} {layer j : ℕ}
    {t : List UpdateCall} (h : net.rehashJ layer j = some (net', t))
    (s' : ℕ) (hne : net.slot layer j ≠ some s') :
    net'.pool.pool_backup[s']? = net.pool.pool_backup[s']? := by
  obtain ⟨s, w, wo, hs, hw, hwo, hbr | hbr⟩ := rehashJ_spec h
  · obtain ⟨-, -, hnet⟩ := hbr
    subst hnet
    have hss : s ≠ s' := fun e => hne (e ▸ hs)
    exact List.getElem?_set_ne hss
  · obtain ⟨-, -, hnet⟩ := hbr
    subst hnet
    rfl

theorem rehashSeq_frame (ps : List (ℕ × ℕ)) :
    ∀ {net : Network} {tr : List UpdateCall} {net' : Network} {tr' : List UpdateCall},
    rehashSeq net tr ps = some (net', tr') →
    net'.lsh2pool = net.lsh2pool ∧ net'.pool.pool = net.pool.pool ∧
    net'.dimensions = net.dimensions ∧ net'.n_layers = net.n_layers ∧
    net'.pool.pool_backup.length = net.pool.pool_backup.length := by
  induction ps with
  | nil =>
    intro net tr net' tr' h
    unfold rehashSeq at h
    simp only [Option.some.injEq, Prod.mk.injEq] at h
    obtain ⟨h1, -⟩ := h
    subst h1
    exact ⟨rfl, rfl, rfl, rfl, rfl⟩
  | cons p ps ih =>
    intro net tr net' tr' h
    unfold rehashSeq at h
    cases hj : net.rehashJ p.1 p.2 with
    | none => rw [hj] at h; cases h
    | some r =>
      obtain ⟨n1, t1⟩ := r
      rw [hj] at h
      have h' : rehashSeq n1 (tr ++ t1) ps = some (net', tr') := h
      have f1 := rehashJ_frame hj
      have f2 := ih h'
      exact ⟨f2.1.trans f1.1, f2.2.1.trans f1.2.1, f2.2.2.1.trans f1.2.2.1,
        f2.2.2.2.1.trans f1.2.2.2.1, f2.2.2.2.2.trans f1.2.2.2.2⟩

theorem rehashSeq_backup_other (ps : List (ℕ × ℕ)) :
    ∀ {net : Network} {tr : List UpdateCall} {net' : Network} {tr' : List UpdateCall},
    rehashSeq net tr ps = some (net', tr') →
    ∀ s', (∀ q ∈ ps, net.slot q.1 q.2 ≠ some s') →
    net'.pool.pool_backup[s']? = net.pool.pool_backup[s']? := by
  induction ps with
  | nil =>
    intro net tr net' tr' h s' _
    unfold rehashSeq at h
    simp only [Option.some.injEq, Prod.mk.injEq] at h
    obtain ⟨h1, -⟩ := h
    subst h1
    rfl
  | cons p ps ih =>
    intro net tr net' tr' h s' hall
    unfold rehashSeq at h
    cases hj : net.rehashJ p.1 p.2 with
    | none => rw [hj] at h; cases h
    | some r =>
      obtain ⟨n1, t1⟩ := r
      rw [hj] at h
      have h' : rehashSeq n1 (tr ++ t1) ps = some (net', tr') := h
      have hstep := rehashJ_backup_other hj s' (hall p (List.mem_cons_self p ps))
      have hslot : ∀ l k, n1.slot l k = net.slot l k :=
        fun l k => slot_congr (rehashJ_frame hj).1 l k
      have htail := ih h' s' (fun q hq => by
        rw [hslot]
        exact hall q (List.mem_cons_of_mem p hq))
      exact htail.trans hstep

theorem rehashSeq_main (ps : List (ℕ × ℕ)) :
    ∀ {net : Network} {tr0 : List UpdateCall} {net' : Network} {tr' : List UpdateCall},
    rehashSeq net tr0 ps = some (net', tr') →
    ps.Pairwise (fun p q => net.slot p.1 p.2 ≠ net.slot q.1 q.2) →
    tr' = tr0 ++ ps.filterMap (stepEntry net) ∧
    ∀ p ∈ ps, ∃ s w wo, net.slot p.1 p.2 = some s ∧ net.pool.pool[s]? = some w ∧
      net.pool.pool_backup[s]? = some wo ∧
      net'.pool.pool_backup[s]? = some (if qsum w ≠ qsum wo then w else wo) := by
  induction ps with
  | nil =>
    intro net tr0 net' tr' h _
    unfold rehashSeq at h
    simp only [Option.some.injEq, Prod.mk.injEq] at h
    obtain ⟨h1, h2⟩ := h
    subst h1
    subst h2
    refine ⟨by simp, ?_⟩
    intro p hp
    exact absurd hp (List.not_mem_nil p)
  | cons p ps ih =>
    intro net tr0 net' tr' h hdisj
    rw [List.pairwise_cons] at hdisj
    obtain ⟨hhead, htail⟩ := hdisj
    unfold rehashSeq at h
    cases hj : net.rehashJ p.1 p.2 with
    | none => rw [hj] at h; cases h
    | some r =>
      obtain ⟨n1, t1⟩ := r
      rw [hj] at h
      have h' : rehashSeq n1 (tr0 ++ t1) ps = some (net', tr') := h
      have fr := rehashJ_frame hj
      have hslot : ∀ l k, n1.slot l k = net.slot l k :=
        fun l k => slot_congr fr.1 l k
      obtain ⟨s, w, wo, hs, hw, hwo, hbr⟩ := rehashJ_spec hj
      have hb_other : ∀ s'', s ≠ s'' →
          n1.pool.pool_backup[s'']? = net.pool.pool_backup[s'']? := by
        intro s'' hne
        refine rehashJ_backup_other hj s'' ?_
        rw [hs]
        intro e
        exact hne (Option.some.injEq .. ▸ e)
      have hstep_eq : ∀ q ∈ ps, stepEntry n1 q = stepEntry net q := by
        intro q hq
        unfold stepEntry
        rw [hslot q.1 q.2, fr.2.1]
        cases hsq : net.slot q.1 q.2 with
        | none => rfl
        | some s'' =>
          have hne : s ≠ s'' := by
            intro e
            subst e
            exact (hhead q hq) (hs.trans hsq.symm)
          show (match net.pool.pool[s'']?, n1.pool.pool_backup[s'']? with
            | some w, some wo =>
                if qsum w ≠ qsum wo then some (UpdateCall.mk q.1 q.2 w wo) else none
            | some _, none => none
            | none, _ => none) =
            (match net.pool.pool[s'']?, net.pool.pool_backup[s'']? with
            | some w, some wo =>
                if qsum w ≠ qsum wo then some (UpdateCall.mk q.1 q.2 w wo) else none
            | some _, none => none
            | none, _ => none)
          rw [hb_other s'' hne]
      have htail1 : ps.Pairwise (fun a b => n1.slot a.1 a.2 ≠ n1.slot b.1 b.2) :=
        htail.imp (fun hab => by rw [hslot, hslot]; exact hab)
      obtain ⟨htr, hper⟩ := ih h' htail1
      have hfm : ps.filterMap (stepEntry n1) = ps.filterMap (stepEntry net) :=
        List.filterMap_congr hstep_eq
      have hnotail : ∀ q ∈ ps, net.slot q.1 q.2 ≠ some s := by
        intro q hq e
        exact (hhead q hq) (hs.trans e.symm)
      cases hbr with
      | inl hbr =>
        obtain ⟨hne, ht1, hnet1⟩ := hbr
        have hse : stepEntry net p = some ⟨p.1, p.2, w, wo⟩ := by
          unfold stepEntry
          rw [hs]
          show (match net.pool.pool[s]?, net.pool.pool_backup[s]? with
            | some w, some wo =>
                if qsum w ≠ qsum wo then some (UpdateCall.mk p.1 p.2 w wo) else none
            | some _, none => none
            | none, _ => none) = _
          rw [hw, hwo]
          show (if qsum w ≠ qsum wo then some (⟨p.1, p.2, w, wo⟩ : UpdateCall) else none) = _
          rw [if_pos hne]
        constructor
        · rw [htr, hfm, List.filterMap_cons, hse, ht1]
          simp
        · intro q hq
          rcases List.mem_cons.mp hq with hq | hq
          · subst hq
            refine ⟨s, w, wo, hs, hw, hwo, ?_⟩
            rw [if_pos hne]
            have hlt : s < net.pool.pool_backup.length :=
              (List.getElem?_eq_some.mp hwo).1
            have h1 : n1.pool.pool_backup[s]? = some w := by
              rw [hnet1]
              exact List.getElem?_set_self hlt
            have h2 : net'.pool.pool_backup[s]? = n1.pool.pool_backup[s]? :=
              rehashSeq_backup_other ps h' s (fun q hq => by
                rw [hslot]
                exact hnotail q hq)
            rw [h2, h1]
          · obtain ⟨s', w', wo', hs', hw', hwo', hfin⟩ := hper q hq
            rw [hslot] at hs'
            rw [fr.2.1] at hw'
            have hne' : s ≠ s' := by
              intro e
              subst e
              exact (hhead q hq) (hs.trans hs'.symm)
            rw [hb_other s' hne'] at hwo'
            exact ⟨s', w', wo', hs', hw', hwo', hfin⟩
      | inr hbr =>
        obtain ⟨heq, ht1, hnet1⟩ := hbr
        have hse : stepEntry net p = none := by
          unfold stepEntry
          rw [hs]
          show (match net.pool.pool[s]?, net.pool.pool_backup[s]? with
            | some w, some wo =>
                if qsum w ≠ qsum wo then some (UpdateCall.mk p.1 p.2 w wo) else none
            | some _, none => none
            | none, _ => none) = _
          rw [hw, hwo]
          show (if qsum w ≠ qsum wo then some (⟨p.1, p.2, w, wo⟩ : UpdateCall) else none) = _
          rw [if_neg (not_not_intro heq)]
        constructor
        · rw [htr, hfm, List.filterMap_cons, hse, ht1]
          simp
        · intro q hq
          rcases List.mem_cons.mp hq with hq | hq
          · subst hq
            refine ⟨s, w, wo, hs, hw, hwo, ?_⟩
            rw [if_neg (not_not_intro heq)]
            have h2 : net'.pool.pool_backup[s]? = n1.pool.pool_backup[s]? :=
              rehashSeq_backup_other ps h' s (fun q hq => by
                rw [hslot]
                exact hnotail q hq)
            rw [h2, hnet1, hwo]
          · obtain ⟨s', w', wo', hs', hw', hwo', hfin⟩ := hper q hq
            rw [hnet1] at hs' hw' hwo'
            exact ⟨s', w', wo', hs', hw', hwo', hfin⟩

theorem stepEntry_pair {net : Network} {p : ℕ × ℕ} {e : UpdateCall}
    (h : stepEntry net p = some e) : e.layer = p.1 ∧ e.j = p.2 := by
  unfold stepEntry at h
  cases hs : net.slot p.1 p.2 with
  | none => rw [hs] at h; cases h
  | some s =>
    rw [hs] at h
    have h2 : (match net.pool.pool[s]?, net.pool.pool_backup[s]? with
      | some w, some wo =>
          if qsum w ≠ qsum wo then some (UpdateCall.mk p.1 p.2 w wo) else none
      | some _, none => none
      | none, _ => none) = some e := h
    cases hw : net.pool.pool[s]? with
    | none => rw [hw] at h2; cases h2
    | some w =>
      rw [hw] at h2
      cases hwo : net.pool.pool_backup[s]? with
      | none => rw [hwo] at h2; cases h2
      | some wo =>
        rw [hwo] at h2
        have h3 : (if qsum w ≠ qsum wo then some (UpdateCall.mk p.1 p.2 w wo)
            else none) = some e := h2
        by_cases hc : qsum w ≠ qsum wo
        · rw [if_pos hc] at h3
          cases h3
          exact ⟨rfl, rfl⟩
        · rw [if_neg hc] at h3
          cases h3

theorem rehashSeq_append (ps qs : List (ℕ × ℕ)) :
    ∀ {net : Network} {tr : List UpdateCall},
    rehashSeq net tr (ps ++ qs) =
      match rehashSeq net tr ps with
      | none => none
      | some r => rehashSeq r.1 r.2 qs := by
  induction ps with
  | nil => intro net tr; rfl
  | cons p ps ih =>
    intro net tr
    cases hj : net.rehashJ p.1 p.2 with
    | none => simp only [List.cons_append, rehashSeq, hj]
    | some r =>
      obtain ⟨n1, t1⟩ := r
      simp only [List.cons_append, rehashSeq, hj]
      exact ih

theorem rehashOuter_dims (ls : List ℕ) :
    ∀ {net : Network} {tr : List UpdateCall} {r : Network × List UpdateCall},
    rehashOuter net tr ls = some r →
    ∀ l ∈ ls, l + 1 < net.dimensions.length := by
  induction ls with
  | nil => intro net tr r _ l hl; exact absurd hl (List.not_mem_nil l)
  | cons l0 ls ih =>
    intro net tr r h l hl
    unfold rehashOuter at h
    cases hd : net.dimensions[l0 + 1]? with
    | none => rw [hd] at h; cases h
    | some shape =>
      rw [hd] at h
      have h2 : (match rehashSeq net tr ((List.range shape).map (fun j => (l0, j))) with
        | none => none
        | some (net', tr') => rehashOuter net' tr' ls) = some r := h
      cases hseq : rehashSeq net tr ((List.range shape).map (fun j => (l0, j))) with
      | none => rw [hseq] at h2; cases h2
      | some r2 =>
        obtain ⟨n1, t1⟩ := r2
        rw [hseq] at h2
        have h3 : rehashOuter n1 t1 ls = some r := h2
        rcases List.mem_cons.mp hl with he | hm
        · subst he
          exact (List.getElem?_eq_some.mp hd).1
        · have := ih h3 l hm
          rwa [(rehashSeq_frame _ hseq).2.2.1] at this

theorem rehashOuter_eq (ls : List ℕ) :
    ∀ {net : Network} {tr : List UpdateCall},
    (∀ l ∈ ls, l + 1 < net.dimensions.length) →
    rehashOuter net tr ls = rehashSeq net tr (ls.flatMap (fun l =>
      (List.range (net.dimensions.getD (l + 1) 0)).map (fun j => (l, j)))) := by
  induction ls with
  | nil => intro net tr _; rfl
  | cons l0 ls ih =>
    intro net tr hdims
    have hl : l0 + 1 < net.dimensions.length := hdims l0 (List.mem_cons_self l0 ls)
    have hsome : net.dimensions[l0 + 1]? = some net.dimensions[l0 + 1] :=
      List.getElem?_eq_getElem hl
    have hgd : net.dimensions.getD (l0 + 1) 0 = net.dimensions[l0 + 1] := by
      rw [List.getD_eq_getElem?_getD, hsome]
      rfl
    unfold rehashOuter
    rw [hsome]
    show (match rehashSeq net tr ((List.range net.dimensions[l0 + 1]).map
        (fun j => (l0, j))) with
      | none => none
      | some (net', tr') => rehashOuter net' tr' ls) =
      rehashSeq net tr ((l0 :: ls).flatMap (fun l =>
        (List.range (net.dimensions.getD (l + 1) 0)).map (fun j => (l, j))))
    rw [List.flatMap_cons, rehashSeq_append, hgd]
    cases hseq : rehashSeq net tr ((List.range net.dimensions[l0 + 1]).map
        (fun j => (l0, j))) with
    | none => rfl
    | some r2 =>
      obtain ⟨n1, t1⟩ := r2
      show rehashOuter n1 t1 ls = rehashSeq n1 t1 (ls.flatMap (fun l =>
        (List.range (net.dimensions.getD (l + 1) 0)).map (fun j => (l, j))))
      have hfr := rehashSeq_frame _ hseq
      have hdims2 : ∀ l ∈ ls, l + 1 < n1.dimensions.length := by
        intro l hm
        rw [hfr.2.2.1]
        exact hdims l (List.mem_cons_of_mem l0 hm)
      have hih := @ih n1 t1 hdims2
      rw [hih, hfr.2.2.1]

theorem rehashJ_of_clean {net : Network} {p : ℕ × ℕ} (hc : CleanAt net p) :
    net.rehashJ p.1 p.2 = some (net, []) := by
  obtain ⟨s, w, wo, hs, hw, hwo, heq⟩ := hc
  have hgw : net.get_weight p.1 p.2 = some w := by
    unfold Network.get_weight
    rw [hs]
    exact hw
  have hgo : net.get_weight_original p.1 p.2 = some wo := by
    unfold Network.get_weight_original
    rw [hs]
    exact hwo
  unfold Network.rehashJ
  rw [hgw, hgo]
  show (if qsum w ≠ qsum wo then _ else some (net, [])) = some (net, [])
  rw [if_neg (not_not_intro heq)]

theorem rehashJ_clean_establish {net net' : Network} {layer j : ℕ}
    {t : List UpdateCall} (h : net.rehashJ layer j = some (net', t)) :
    CleanAt net' (layer, j) := by
  obtain ⟨s, w, wo, hs, hw, hwo, hbr | hbr⟩ := rehashJ_spec h
  · obtain ⟨-, -, hnet⟩ := hbr
    subst hnet
    have hlt : s < net.pool.pool_backup.length :=
      (List.getElem?_eq_some.mp hwo).1
    exact ⟨s, w, w, hs, hw, List.getElem?_set_self hlt, rfl⟩
  · obtain ⟨heq, -, hnet⟩ := hbr
    subst hnet
    exact ⟨s, w, wo, hs, hw, hwo, heq⟩

theorem rehashJ_clean_preserve {net net' : Network} {l' j' : ℕ}
    {t : List UpdateCall} (h : net.rehashJ l' j' = some (net', t))
    {p : ℕ × ℕ} (hc : CleanAt net p) : CleanAt net' p := by
  obtain ⟨s, w, wo, hs, hw, hwo, heq⟩ := hc
  obtain ⟨s', w', wo', hs', hw', hwo', hbr | hbr⟩ := rehashJ_spec h
  · obtain ⟨-, -, hnet⟩ := hbr
    subst hnet
    by_cases e : s' = s
    · subst e
      have hww : w' = w := by
        rw [hw] at hw'
        exact (Option.some.inj hw').symm
      have hlt : s' < net.pool.pool_backup.length :=
        (List.getElem?_eq_some.mp hwo').1
      refine ⟨s', w, w, hs, hw, ?_, rfl⟩
      show (net.pool.pool_backup.set s' w')[s']? = some w
      rw [List.getElem?_set_self hlt, hww]
    · refine ⟨s, w, wo, hs, hw, ?_, heq⟩
      show (net.pool.pool_backup.set s' w')[s]? = some wo
      rw [List.getElem?_set_ne e]
      exact hwo
  · obtain ⟨-, -, hnet⟩ := hbr
    subst hnet
    exact ⟨s, w, wo, hs, hw, hwo, heq⟩

theorem rehashSeq_clean_preserve (ps : List (ℕ × ℕ)) :
    ∀ {net tr net' tr'}, rehashSeq net tr ps = some (net', tr') →
    ∀ {p : ℕ × ℕ}, CleanAt net p → CleanAt net' p := by
  induction ps with
  | nil =>
    intro net tr net' tr' h p hc
    unfold rehashSeq at h
    simp only [Option.some.injEq, Prod.mk.injEq] at h
    obtain ⟨h1, -⟩ := h
    subst h1
    exact hc
  | cons q ps ih =>
    intro net tr net' tr' h p hc
    unfold rehashSeq at h
    cases hj : net.rehashJ q.1 q.2 with
    | none => rw [hj] at h; cases h
    | some r =>
      obtain ⟨n1, t1⟩ := r
      rw [hj] at h
      have h' : rehashSeq n1 (tr ++ t1) ps = some (net', tr') := h
      exact ih h' (rehashJ_clean_preserve hj hc)

theorem rehashSeq_clean_all (ps : List (ℕ × ℕ)) :
    ∀ {net tr net' tr'}, rehashSeq net tr ps = some (net', tr') →
    ∀ p ∈ ps, CleanAt net' p := by
  induction ps with
  | nil =>
    intro net tr net' tr' _ p hp
    exact absurd hp (List.not_mem_nil p)
  | cons q ps ih =>
    intro net tr net' tr' h p hp
    unfold rehashSeq at h
    cases hj : net.rehashJ q.1 q.2 with
    | none => rw [hj] at h; cases h
    | some r =>
      obtain ⟨n1, t1⟩ := r
      rw [hj] at h
      have h' : rehashSeq n1 (tr ++ t1) ps = some (net', tr') := h
      rcases List.mem_cons.mp hp with he | hm
      · subst he
        exact rehashSeq_clean_preserve ps h' (rehashJ_clean_establish hj)
      · exact ih h' p hm

theorem rehashSeq_of_clean (ps : List (ℕ × ℕ)) :
    ∀ {net : Network} {tr : List UpdateCall}, (∀ p ∈ ps, CleanAt net p) →
    rehashSeq net tr ps = some (net, tr) := by
  induction ps with
  | nil => intro net tr _; rfl
  | cons q ps ih =>
    intro net tr hall
    unfold rehashSeq
    rw [rehashJ_of_clean (hall q (List.mem_cons_self q ps))]
    show rehashSeq net (tr ++ []) ps = some (net, tr)
    rw [List.append_nil]
    exact ih (fun p hp => hall p (List.mem_cons_of_mem q hp))

theorem bytesToI32_digits (x : Int) (h1 : -2147483648 ≤ x) (h2 : x < 2147483648) :
    bytesToI32 ((x % 4294967296).toNat % 256) ((x % 4294967296).toNat / 256 % 256)
      ((x % 4294967296).toNat / 65536 % 256) ((x % 4294967296).toNat / 16777216 % 256)
      = x := by
  have hx0 : (0 : Int) ≤ x % 4294967296 := Int.emod_nonneg x (by norm_num)
  have hcast : (((x % 4294967296).toNat : ℕ) : Int) = x % 4294967296 :=
    Int.toNat_of_nonneg hx0
  unfold bytesToI32
  set n : ℕ := (x % 4294967296).toNat with hn
  have hxlt : x % 4294967296 < 4294967296 := Int.emod_lt_of_pos x (by norm_num)
  have hnlt : n < 4294967296 := by omega
  show (if n % 256 + 256 * (n / 256 % 256) + 65536 * (n / 65536 % 256) +
      16777216 * (n / 16777216 % 256) < 2147483648
    then ((n % 256 + 256 * (n / 256 % 256) + 65536 * (n / 65536 % 256) +
      16777216 * (n / 16777216 % 256) : ℕ) : Int)
    else ((n % 256 + 256 * (n / 256 % 256) + 65536 * (n / 65536 % 256) +
      16777216 * (n / 16777216 % 256) : ℕ) : Int) - 4294967296) = x
  have hm : n % 256 + 256 * (n / 256 % 256) + 65536 * (n / 65536 % 256) +
      16777216 * (n / 16777216 % 256) = n := by omega
  rw [hm]
  split_ifs with hlt <;> omega

theorem blob_roundtrip_elem (x : Int) (rest : List ℕ)
    (h1 : -2147483648 ≤ x) (h2 : x < 2147483648) :
    blob_to_hash (i32ToBytes x ++ rest) = x :: blob_to_hash rest := by
  show blob_to_hash ((x % 4294967296).toNat % 256 ::
    (x % 4294967296).toNat / 256 % 256 ::
    (x % 4294967296).toNat / 65536 % 256 ::
    (x % 4294967296).toNat / 16777216 % 256 :: rest) = x :: blob_to_hash rest
  show bytesToI32 ((x % 4294967296).toNat % 256) ((x % 4294967296).toNat / 256 % 256)
      ((x % 4294967296).toNat / 65536 % 256) ((x % 4294967296).toNat / 16777216 % 256)
      :: blob_to_hash rest = x :: blob_to_hash rest
  rw [bytesToI32_digits x h1 h2]

/-- C6: encoding any hash of in-range signed 32-bit components to its
little-endian byte blob with `hash_to_blob` and decoding back with
`blob_to_hash` yields the original hash. -/
theorem c6_hash_blob_roundtrip (h : List Int)
    (hrange : ∀ x ∈ h, -2147483648 ≤ x ∧ x < 2147483648) :
    blob_to_hash (hash_to_blob h) = h := by
  induction h with
  | nil => rfl
  | cons x t ih =>
    have hx := hrange x (List.mem_cons_self x t)
    have hstep : hash_to_blob (x :: t) = i32ToBytes x ++ hash_to_blob t := rfl
    rw [hstep, blob_roundtrip_elem x _ hx.1 hx.2,
      ih (fun y hy => hrange y (List.mem_cons_of_mem x hy))]

/-- C6 witness: the round trip evaluated on the spec's longest test hash,
through the general theorem. -/
theorem c6_hash_blob_roundtrip_witness :
    (∀ x ∈ ([-8979875, -2, -3, 1, 2, 3, 4, 5, 6] : List Int),
      -2147483648 ≤ x ∧ x < 2147483648) ∧
    blob_to_hash (hash_to_blob [-8979875, -2, -3, 1, 2, 3, 4, 5, 6]) =
      [-8979875, -2, -3, 1, 2, 3, 4, 5, 6] :=
  ⟨by decide, c6_hash_blob_roundtrip [-8979875, -2, -3, 1, 2, 3, 4, 5, 6] (by decide)⟩

theorem count_filter_map_snd (rows : SqlRows) (hsh : Hash) (c : ℕ) :
    ((rows.filter (fun r => r.1 = hsh)).map Prod.snd).count c =
      rows.count (hsh, c) := by
  induction rows with
  | nil => rfl
  | cons a t ih =>
    obtain ⟨ah, ai⟩ := a
    by_cases h1 : ah = hsh
    · subst h1
      rw [List.filter_cons]
      simp only [decide_eq_true_eq]
      rw [if_pos trivial, List.map_cons, List.count_cons, List.count_cons, ih]
      congr 1
      by_cases h2 : ai = c <;> simp [h2]
    · rw [List.filter_cons]
      simp only [decide_eq_true_eq]
      rw [if_neg h1, List.count_cons, ih]
      have : ¬ ((ah, ai) = (hsh, c)) := by
        intro e
        exact h1 (Prod.mk.injEq .. ▸ e).1
      simp [this]

/-- C7: insertion into the persistent backend is idempotent.  Putting the
same hash twice into the same (non-final, so the id counter does not
advance between the calls) table inserts the `(hash, id)` pair once:
both puts return the id as a success, the table holds exactly one row
for the pair — the second insert hits the primary key and is treated as
a no-op success — and a query for that hash returns the id exactly
once. -/
theorem c7_sql_put_idempotent (st : SqlTable) (hsh : Hash) (i : ℕ) (rows : SqlRows)
    (hrows : st.tables[i]? = some rows)
    (hfresh : (hsh, st.counter) ∉ rows)
    (hni : i ≠ st.n_hash_tables - 1) :
    ∃ st1 st2, st.put hsh i = Except.ok (st.counter, st1) ∧
      st1.put hsh i = Except.ok (st.counter, st2) ∧
      st2.tables[i]? = some (rows ++ [(hsh, st.counter)]) ∧
      (rows ++ [(hsh, st.counter)]).count (hsh, st.counter) = 1 ∧
      st2.query_bucket hsh i = Except.ok
        (((rows ++ [(hsh, st.counter)]).filter (fun r => r.1 = hsh)).map Prod.snd) ∧
      (((rows ++ [(hsh, st.counter)]).filter (fun r => r.1 = hsh)).map Prod.snd).count
        st.counter = 1 := by
  have hlt : i < st.tables.length := (List.getElem?_eq_some.mp hrows).1
  have hins1 : insert_table rows hsh st.counter =
      Except.ok (rows ++ [(hsh, st.counter)]) := by
    unfold insert_table
    rw [if_neg hfresh]
  refine ⟨{ st with tables := st.tables.set i (rows ++ [(hsh, st.counter)]) },
    { st with tables := st.tables.set i (rows ++ [(hsh, st.counter)]) },
    ?_, ?_, ?_, ?_, ?_, ?_⟩
  · simp only [SqlTable.put, hrows, hins1, if_neg hni]
  · have hrows2 : (st.tables.set i (rows ++ [(hsh, st.counter)]))[i]? =
        some (rows ++ [(hsh, st.counter)]) := List.getElem?_set_self hlt
    have hins2 : insert_table (rows ++ [(hsh, st.counter)]) hsh st.counter =
        Except.error DbError.sqliteFailure := by
      unfold insert_table
      rw [if_pos (List.mem_append_right rows (List.mem_singleton.mpr rfl))]
    simp only [SqlTable.put, hrows2, hins2, if_neg hni, List.set_set]
  · exact List.getElem?_set_self hlt
  · rw [List.count_append, List.count_eq_zero.mpr hfresh]
    simp
  · unfold SqlTable.query_bucket
    rw [List.getElem?_set_self hlt]
  · rw [count_filter_map_snd, List.count_append, List.count_eq_zero.mpr hfresh]
    simp

/-- C7 witness: a fresh two-table persistent store, hash `[1, 2]`, table
0; both puts return id 0, one row remains, and the query returns `{0}`
with a single entry. -/
theorem c7_sql_put_idempotent_witness :
    ((SqlTable.new_in_mem 2).tables[0]? = some [] ∧
     ((([1, 2] : Hash), (SqlTable.new_in_mem 2).counter) ∉ ([] : SqlRows)) ∧
     (0 : ℕ) ≠ (SqlTable.new_in_mem 2).n_hash_tables - 1) ∧
    (∃ st1 st2, (SqlTable.new_in_mem 2).put [1, 2] 0 =
        Except.ok ((SqlTable.new_in_mem 2).counter, st1) ∧
      st1.put [1, 2] 0 = Except.ok ((SqlTable.new_in_mem 2).counter, st2) ∧
      st2.tables[0]? = some ([] ++ [([1, 2], (SqlTable.new_in_mem 2).counter)]) ∧
      (([] : SqlRows) ++ [([1, 2], (SqlTable.new_in_mem 2).counter)]).count
        (([1, 2] : Hash), (SqlTable.new_in_mem 2).counter) = 1 ∧
      st2.query_bucket [1, 2] 0 = Except.ok
        (((([] : SqlRows) ++ [([1, 2], (SqlTable.new_in_mem 2).counter)]).filter
          (fun (r : Hash × ℕ) => r.1 = [1, 2])).map Prod.snd) ∧
      (((([] : SqlRows) ++ [([1, 2], (SqlTable.new_in_mem 2).counter)]).filter
          (fun (r : Hash × ℕ) => r.1 = [1, 2])).map Prod.snd).count
        (SqlTable.new_in_mem 2).counter = 1) :=
  ⟨⟨by decide, by decide, by decide⟩,
    c7_sql_put_idempotent (SqlTable.new_in_mem 2) [1, 2] 0 []
      (by decide) (by decide) (by decide)⟩

/-- C10: `MemoryTable::delete` never modifies the vector store (or the
id counter): whatever it returns, `vec_store` is unchanged, and when the
data point is absent from the vector store it returns `Ok` and changes
nothing at all. -/
theorem c10_delete_preserves_vec_store (st : MemoryTable) (hash : Hash)
    (d : DataPoint) (i : ℕ) (r : Except HashTableError Unit) (st' : MemoryTable)
    (h : st.delete hash d i = some (r, st')) :
    st'.vec_store = st.vec_store ∧ st'.counter = st.counter ∧
    (vecPosition st.vec_store d = none → r = Except.ok () ∧ st' = st) := by
  unfold MemoryTable.delete at h
  cases hpos : vecPosition st.vec_store d with
  | none =>
    rw [hpos] at h
    have h2 : some ((Except.ok () : Except HashTableError Unit), st) = some (r, st') := h
    simp only [Option.some.injEq, Prod.mk.injEq] at h2
    obtain ⟨h3, h4⟩ := h2
    exact ⟨by rw [← h4], by rw [← h4], fun _ => ⟨h3.symm, h4.symm⟩⟩
  | some idx =>
    rw [hpos] at h
    have h1 : (match st.hash_tables[i]? with
      | none => none
      | some tbl =>
          match alGet tbl hash with
          | none => some (Except.error HashTableError.notFound, st)
          | some _ =>
              some (Except.ok (),
                { st with hash_tables :=
                  st.hash_tables.set i (alRemoveId tbl hash idx) })) = some (r, st') := h
    cases htbl : st.hash_tables[i]? with
    | none => rw [htbl] at h1; cases h1
    | some tbl =>
      rw [htbl] at h1
      have h2 : (match alGet tbl hash with
        | none => some ((Except.error HashTableError.notFound :
            Except HashTableError Unit), st)
        | some _ =>
            some (Except.ok (),
              { st with hash_tables :=
                st.hash_tables.set i (alRemoveId tbl hash idx) })) = some (r, st') := h1
      cases hget : alGet tbl hash with
      | none =>
        rw [hget] at h2
        simp only [Option.some.injEq, Prod.mk.injEq] at h2
        obtain ⟨h3, h4⟩ := h2
        exact ⟨by rw [← h4], by rw [← h4], fun hc => by cases hc⟩
      | some b =>
        rw [hget] at h2
        simp only [Option.some.injEq, Prod.mk.injEq] at h2
        obtain ⟨h3, h4⟩ := h2
        exact ⟨by rw [← h4], by rw [← h4], fun hc => by cases hc⟩

/-- C10 witness: the frame theorem applied to a concrete delete that
does remove an id from a bucket. -/
theorem c10_delete_preserves_vec_store_witness :
    stC10.delete [1] [5] 0 = some (Except.ok (), stC10After) ∧
    (stC10After.vec_store = stC10.vec_store ∧ stC10After.counter = stC10.counter ∧
     (vecPosition stC10.vec_store [5] = none →
       (Except.ok () : Except HashTableError Unit) = Except.ok () ∧
       stC10After = stC10)) :=
  ⟨rfl, c10_delete_preserves_vec_store stC10 [1] [5] 0
    (Except.ok ()) stC10After rfl⟩

theorem stepEntry_eval {net : Network} {p : ℕ × ℕ} {s : ℕ} {w wo : Weight}
    (hs : net.slot p.1 p.2 = some s) (hw : net.pool.pool[s]? = some w)
    (hwo : net.pool.pool_backup[s]? = some wo) :
    stepEntry net p =
      if qsum w ≠ qsum wo then some (UpdateCall.mk p.1 p.2 w wo) else none := by
  unfold stepEntry
  rw [hs]
  show (match net.pool.pool[s]?, net.pool.pool_backup[s]? with
    | some w, some wo =>
        if qsum w ≠ qsum wo then some (UpdateCall.mk p.1 p.2 w wo) else none
    | some _, none => none
    | none, _ => none) = _
  rw [hw, hwo]

theorem mem_rehashPairs {net : Network} {layer j : ℕ} :
    (layer, j) ∈ rehashPairs net ↔
      layer < net.n_layers - 1 ∧ j < net.dimensions.getD (layer + 1) 0 := by
  unfold rehashPairs
  simp only [List.mem_flatMap, List.mem_range, List.mem_map, Prod.mk.injEq]
  constructor
  · rintro ⟨l, hl, jj, hjj, he1, he2⟩
    subst he1
    subst he2
    exact ⟨hl, hjj⟩
  · rintro ⟨hl, hj⟩
    exact ⟨layer, hl, j, hj, rfl, rfl⟩

theorem rehash_eq_rehashSeq {net : Network} {r : Network × List UpdateCall}
    (h : net.rehash = some r) :
    net.rehash = rehashSeq net [] (rehashPairs net) := by
  have hdims : ∀ l ∈ List.range (net.n_layers - 1), l + 1 < net.dimensions.length :=
    rehashOuter_dims _ h
  exact rehashOuter_eq _ hdims

/-- C4: `rehash` visits every perceptron `j` of every non-input layer
and runs the sum-based change detector on it: when the element sums of
the live weight and the backup differ it calls
`update_by_idx(j, w_now, w_prev)` (the call appears in the trace) and
overwrites the backup slot with the live weight; when the sums agree it
performs no call for that perceptron and retains the prior backup.  The
slots of distinct perceptrons are assumed distinct, as construction
guarantees. -/
theorem c4_rehash_change_detector (net net' : Network) (tr : List UpdateCall)
    (hr : net.rehash = some (net', tr))
    (hdisj : (rehashPairs net).Pairwise
      (fun p q => net.slot p.1 p.2 ≠ net.slot q.1 q.2))
    (layer j : ℕ) (hl : layer < net.n_layers - 1)
    (hj : j < net.dimensions.getD (layer + 1) 0) :
    ∃ s w wo, net.slot layer j = some s ∧ net.pool.pool[s]? = some w ∧
      net.pool.pool_backup[s]? = some wo ∧
      (qsum w ≠ qsum wo →
        UpdateCall.mk layer j w wo ∈ tr ∧ net'.pool.pool_backup[s]? = some w) ∧
      (qsum w = qsum wo →
        (∀ e ∈ tr, ¬(e.layer = layer ∧ e.j = j)) ∧
        net'.pool.pool_backup[s]? = some wo) := by
  have heqseq := rehash_eq_rehashSeq hr
  rw [heqseq] at hr
  obtain ⟨htr, hper⟩ := rehashSeq_main _ hr hdisj
  have hmem : (layer, j) ∈ rehashPairs net := mem_rehashPairs.mpr ⟨hl, hj⟩
  obtain ⟨s, w, wo, hs, hw, hwo, hfin⟩ := hper (layer, j) hmem
  refine ⟨s, w, wo, hs, hw, hwo, ?_, ?_⟩
  · intro hne
    constructor
    · rw [htr, List.nil_append]
      apply List.mem_filterMap.mpr
      refine ⟨(layer, j), hmem, ?_⟩
      rw [stepEntry_eval hs hw hwo, if_pos hne]
    · rw [if_pos hne] at hfin
      exact hfin
  · intro heq
    constructor
    · intro e he hcon
      rw [htr, List.nil_append] at he
      obtain ⟨q, hq, hqe⟩ := List.mem_filterMap.mp he
      obtain ⟨he1, he2⟩ := stepEntry_pair hqe
      have hqp : q = (layer, j) := by
        obtain ⟨q1, q2⟩ := q
        simp only at he1 he2
        rw [← he1, ← he2, hcon.1, hcon.2]
      rw [hqp, stepEntry_eval hs hw hwo, if_neg (not_not_intro heq)] at hqe
      cases hqe
    · rw [if_neg (not_not_intro heq)] at hfin
      exact hfin

/-- C5: `rehash` is idempotent — a second call with no intervening
parameter update performs no `update_by_idx` call (empty trace) and
leaves the whole network state, the backup pool included, unchanged. -/
theorem c5_rehash_idempotent (net net' : Network) (tr : List UpdateCall)
    (hr : net.rehash = some (net', tr)) : net'.rehash = some (net', []) := by
  have hdims : ∀ l ∈ List.range (net.n_layers - 1), l + 1 < net.dimensions.length :=
    rehashOuter_dims _ hr
  have heqseq := rehash_eq_rehashSeq hr
  rw [heqseq] at hr
  have hclean : ∀ p ∈ rehashPairs net, CleanAt net' p := rehashSeq_clean_all _ hr
  have hfr := rehashSeq_frame _ hr
  have hpairs : rehashPairs net' = rehashPairs net := by
    unfold rehashPairs
    rw [hfr.2.2.2.1, hfr.2.2.1]
  have hdims' : ∀ l ∈ List.range (net'.n_layers - 1),
      l + 1 < net'.dimensions.length := by
    rw [hfr.2.2.2.1, hfr.2.2.1]
    exact hdims
  have heq2 : net'.rehash = rehashSeq net' [] (rehashPairs net') :=
    rehashOuter_eq _ hdims'
  rw [heq2, hpairs]
  exact rehashSeq_of_clean _ hclean

/-- C4 witness: the change-detector theorem applied to `netR`, whose
single perceptron fires the detector. -/
theorem c4_rehash_change_detector_witness :
    netR.rehash = some (netRAfter, [UpdateCall.mk 0 0 [2] [1]]) ∧
    (rehashPairs netR).Pairwise
      (fun p q => netR.slot p.1 p.2 ≠ netR.slot q.1 q.2) ∧
    0 < netR.n_layers - 1 ∧ 0 < netR.dimensions.getD 1 0 ∧
    (∃ s w wo, netR.slot 0 0 = some s ∧ netR.pool.pool[s]? = some w ∧
      netR.pool.pool_backup[s]? = some wo ∧
      (qsum w ≠ qsum wo →
        UpdateCall.mk 0 0 w wo ∈ [UpdateCall.mk 0 0 [2] [1]] ∧
        netRAfter.pool.pool_backup[s]? = some w) ∧
      (qsum w = qsum wo →
        (∀ e ∈ [UpdateCall.mk 0 0 [2] [1]], ¬(e.layer = 0 ∧ e.j = 0)) ∧
        netRAfter.pool.pool_backup[s]? = some wo)) :=
  ⟨rfl,
   by
     rw [show rehashPairs netR = [(0, 0)] from rfl]
     exact List.pairwise_singleton _ _,
   by decide, by decide,
   c4_rehash_change_detector netR netRAfter [UpdateCall.mk 0 0 [2] [1]] rfl
     (by
       rw [show rehashPairs netR = [(0, 0)] from rfl]
       exact List.pairwise_singleton _ _)
     0 0 (by decide) (by decide)⟩

/-- C5 witness: after `netR`'s first rehash the second rehash emits no
call and changes nothing. -/
theorem c5_rehash_idempotent_witness :
    netR.rehash = some (netRAfter, [UpdateCall.mk 0 0 [2] [1]]) ∧
    netRAfter.rehash = some (netRAfter, []) :=
  ⟨rfl, c5_rehash_idempotent netR netRAfter [UpdateCall.mk 0 0 [2] [1]] rfl⟩

theorem initPerceptrons_some (sample : ℕ → Weight) (js : List ℕ) :
    ∀ {pool : MemArena} {li : LayerInit}, pool.free = [] →
    ∃ r, initPerceptrons sample js pool li = some r ∧ r.1.free = [] := by
  induction js with
  | nil => intro pool li h; exact ⟨(pool, li), rfl, h⟩
  | cons jj rest ih =>
    intro pool li hfree
    have hadd : pool.add (sample jj) = some (pool.pool.length,
        { pool with pool := pool.pool ++ [sample jj] }) := by
      unfold MemArena.add
      rw [hfree]
    unfold initPerceptrons
    rw [hadd]
    exact ih hfree

theorem initLayers_some (dims : List ℕ) (sample : ℕ → ℕ → Weight) (ls : List ℕ) :
    ∀ {pool : MemArena} {ni : NetInit}, pool.free = [] →
    ∃ r, initLayers dims sample ls pool ni = some r ∧ r.1.free = [] := by
  induction ls with
  | nil => intro pool ni h; exact ⟨(pool, ni), rfl, h⟩
  | cons i rest ih =>
    intro pool ni hfree
    obtain ⟨⟨pool', li⟩, hstep, hfree'⟩ :=
      @initPerceptrons_some (sample i) (List.range (dims.getD (i + 1) 0))
        pool ⟨[], fun _ => none, fun _ => none⟩ hfree
    unfold initLayers
    rw [hstep]
    exact ih hfree'

/-- C8 counterexample: an invalid configuration — the activations count
(0) differs from `dimensions − 1` (1) and the loss name is unknown —
for which `Network::new` nevertheless produces a network instead of
failing. -/
theorem c8_new_accepts_invalid_config :
    ¬ (([] : List Activ).length = ([2, 1] : List ℕ).length - 1) ∧
    ("bogus" : String) ≠ "mse" ∧ ("bogus" : String) ≠ "nll" ∧
    (Network.new [2, 1] [] 1 1 1 (fun _ _ => [0]) "bogus"
      (fun _ _ => [])).isSome = true := by
  refine ⟨by decide, by decide, by decide, ?_⟩
  rfl

/-- C8 (amended): `Network::new` performs no configuration validation.
For every non-empty dimensions list it produces a network, whatever the
activations count, the projection count `K`, the table count `N`, or
the loss name; only an empty dimensions list fails, by an arithmetic
underflow panic rather than a configuration error. -/
theorem c8_new_never_validates (dimensions : List ℕ) (activations : List Activ)
    (n_projections n_hash_tables : ℕ) (lr : ℚ) (sample : ℕ → ℕ → Weight)
    (loss : String) (query : ℕ → List ℚ → List ℕ) :
    (Network.new dimensions activations n_projections n_hash_tables lr sample
      loss query).isSome = !dimensions.isEmpty := by
  unfold Network.new
  cases dimensions with
  | nil => rfl
  | cons d ds =>
    simp only [List.isEmpty_cons, Bool.not_false, if_neg (by simp : ¬((d :: ds).isEmpty = true))]
    obtain ⟨⟨pool, ni⟩, hr, -⟩ :=
      @initLayers_some (d :: ds) sample (List.range ((d :: ds).length - 1))
        MemArena.new ⟨[], [], []⟩ rfl
    rw [hr]
    rfl

/-- C1: with exactly two dimensions (`L = 2`) the final non-input layer
is layer 0, which `forward` applies with `last_layer = false`: the layer
is LSH-gated, so with an empty bucket the final neuron list is empty
instead of `{0, …, d_1 − 1}`. -/
theorem c1_last_layer_gated_at_two_dims :
    netL2.dimensions.length = 2 ∧
    netL2.forward [1] = some ([[]], [[1]]) ∧
    List.map Neuron.j [] ≠ List.range (netL2.dimensions.getD 1 0) := by
  exact ⟨by decide, by decide, by decide⟩

/-- C2: in `backprop` the delta chain is not propagated — `prev_nodes`
is never replaced by `new_prev_nodes`, so every layer receives the
output neuron's delta, weight row and pre-activation.  On a network
with two hidden layers the code yields layer-0 delta 3 while the
claimed layer-by-layer chaining (the spec-modelled `backpropSpec`)
yields 15. -/
theorem c2_backprop_not_chained :
    (netL4.backprop mseLike nllLike neurL4 [0]).map
      (fun r => r.2.map (List.map Neuron.delta)) = some [[3], [5], [1]] ∧
    (netL4.backpropSpec mseLike nllLike neurL4 [0]).map
      (fun r => r.2.map (List.map Neuron.delta)) = some [[15], [5], [1]] ∧
    ([[3], [5], [1]] : List (List ℚ)) ≠ [[15], [5], [1]] := by
  exact ⟨by decide, by decide, by decide⟩

/-- C3: with `N = 1` and vector retention enabled
(`only_index_storage = false`), the memory backend's `put` takes the
table-0 retention branch and never reaches the counter increment: one
complete logical insertion leaves the counter at 0, and the next
insertion is assigned the same id 0 again. -/
theorem c3_memory_put_counter_stuck :
    (MemoryTable.put (MemoryTable.new 1 false) [1] [1] 0).map
      (fun r => (r.1, r.2.counter)) = some (0, 0) ∧
    ((MemoryTable.put (MemoryTable.new 1 false) [1] [1] 0).bind
      (fun r => MemoryTable.put r.2 [1] [1] 0)).map
      (fun r => (r.1, r.2.counter)) = some (0, 0) := by
  exact ⟨by decide, by decide⟩

/-- C9: `MemArena::add` with a non-empty free list uses `Vec::insert`,
which shifts instead of overwriting: after `add([9])` slot 2 holds the
new vector and the returned index is 2, but slot 3 now holds `[3]`
(previously `[4]`) and the pool grew to five slots — the other occupied
slots are not unchanged. -/
theorem c9_arena_add_shifts_slots :
    arenaC9.add [9] =
      some (2, { pool := [[1], [2], [9], [3], [4]], pool_backup := [], free := [] }) ∧
    arenaC9.pool[3]? = some [4] ∧
    ({ pool := [[1], [2], [9], [3], [4]], pool_backup := [], free := [] } :
      MemArena).pool[3]? = some [3] ∧
    some ([4] : Weight) ≠ some [3] := by
  exact ⟨by decide, by decide, by decide, by decide⟩

end LshRs
